import Mathlib

/-!
# Verification of the JobPulse-AI record normalization core

Shallow embedding of `src/data_processing/clean_transform.py`
(`JobDataProcessor`) and proofs settling the frozen claims about it.

Conventions of the embedding:
* Python strings are Lean `String`s, processed as `List Char`.
* Python `None` inputs are `Option.none`; a function that can raise an
  uncaught exception returns `Option` (with `none` = exception) where noted.
* Python `float` values are modelled as `ℚ` (all numbers occurring in the
  claims are exactly representable).
* The character classes of Python's `re` module (`\s`, `\w`) are modelled
  by `pyIsSpace` (the Unicode whitespace set used by both `\s` and
  `str.strip`) and `isWordB` (ASCII approximation of `\w`; every input in
  the claims is ASCII).
* Each specific regular expression of the source is implemented as a
  dedicated scanner whose semantics (leftmost search, greedy repetition,
  ordered alternation) coincide with `re` on the pattern in question; the
  pattern's character classes are disjoint from the characters that may
  follow them, so the greedy scan needs no backtracking.
-/

set_option maxRecDepth 4000

/-! ## Character classes -/

/-- Python whitespace: the set matched by `\s` (for `str` patterns) and
stripped by `str.strip()`. -/
def pyIsSpace (c : Char) : Bool :=
  c.toNat = 32 || (9 ≤ c.toNat && c.toNat ≤ 13) || (28 ≤ c.toNat && c.toNat ≤ 31) ||
  c.toNat = 133 || c.toNat = 160 || c.toNat = 5760 ||
  (8192 ≤ c.toNat && c.toNat ≤ 8202) || c.toNat = 8232 || c.toNat = 8233 ||
  c.toNat = 8239 || c.toNat = 8287 || c.toNat = 12288

/-- The class `[\n\t\r]` of the newline-collapsing substitution. -/
def isNTR (c : Char) : Bool := c = '\n' || c = '\t' || c = '\r'

/-- Word character for `\b`/`\w` (ASCII approximation of Python `\w`). -/
def isWordB (c : Char) : Bool := c.isAlphanum || c = '_'

/-- ASCII lowercasing, as `str.lower()` on the ASCII inputs of the claims. -/
def pyLowerL (l : List Char) : List Char := l.map Char.toLower

def pyLowerStr (s : String) : String := ⟨pyLowerL s.data⟩

/-! ## Text normalizer (`JobDataProcessor._clean_text`)

`re.sub(r'<[^>]+>', ' ', text)` is implemented by the state machine
`stAux`: outside a candidate tag it copies characters, after a `<` it
buffers the characters read (none of which is `>`); a closing `>` with a
non-empty buffer replaces the whole candidate by one space, a `>` arriving
immediately after the `<` re-emits `<>` literally (the pattern needs at
least one inner character), and a dangling candidate at the end of input is
re-emitted literally (no closing `>` exists, so `re` finds no match there).

`re.sub(r'[\n\t\r]+', ' ', …)` and `re.sub(r'\s+', ' ', …)` both replace
every maximal run of a character class by a single space: `collapseAux p b`
with the state `b` = "currently inside a run". `str.strip()` is `pyStrip`. -/

def stAux : Option (List Char) → List Char → List Char
  | none, [] => []
  | some buf, [] => '<' :: buf.reverse
  | none, c :: cs => if c = '<' then stAux (some []) cs else c :: stAux none cs
  | some buf, c :: cs =>
    if c = '>' then
      if buf.isEmpty then '<' :: '>' :: stAux none cs else ' ' :: stAux none cs
    else stAux (some (c :: buf)) cs

def stripTags (l : List Char) : List Char := stAux none l

def collapseAux (p : Char → Bool) : Bool → List Char → List Char
  | _, [] => []
  | b, c :: cs =>
    if p c then
      if b then collapseAux p true cs else ' ' :: collapseAux p true cs
    else c :: collapseAux p false cs

def collapseRuns (p : Char → Bool) (l : List Char) : List Char := collapseAux p false l

/-- Drop a trailing run of `p`-characters (the right half of `strip`). -/
def dropTrail (p : Char → Bool) (l : List Char) : List Char :=
  (l.reverse.dropWhile p).reverse

/-- Python `str.strip()` on character lists. -/
def pyStrip (l : List Char) : List Char := dropTrail pyIsSpace (l.dropWhile pyIsSpace)

def pyStripStr (s : String) : String := ⟨pyStrip s.data⟩

/-- The substitution pipeline of `_clean_text` on character lists: HTML
tags, then `[\n\t\r]+` runs, then `\s+` runs, then `strip()`. -/
def cleanPipe (l : List Char) : List Char :=
  pyStrip (collapseRuns pyIsSpace (collapseRuns isNTR (stripTags l)))

/-- `JobDataProcessor._clean_text` for a `str` argument: empty strings are
falsy and returned as `""`; otherwise strip HTML tags, collapse
newline/tab runs, collapse whitespace runs, and strip the ends. -/
def clean_text (s : String) : String :=
  if s.data.isEmpty then "" else ⟨cleanPipe s.data⟩

/-- `JobDataProcessor._clean_text` including the `None` input (falsy). -/
def clean_text_opt (o : Option String) : String :=
  match o with
  | none => ""
  | some s => clean_text s

/-! ## Tag detector

`hasTag l` decides whether `l` contains a substring matched by
`<[^>]+>`: a `<`, at least one non-`>` character, then a `>`. `afterGt`
returns the remainder after the first `>`, if any. -/

def afterGt : List Char → Option (List Char)
  | [] => none
  | c :: cs => if c = '>' then some cs else afterGt cs

/-- The rest of a list starts a tag interior: a non-`>` character with a
`>` somewhere after it. -/
def tagStart : List Char → Bool
  | [] => false
  | d :: ds => (d != '>') && (afterGt ds).isSome

def hasTag : List Char → Bool
  | [] => false
  | c :: cs => ((c == '<') && tagStart cs) || hasTag cs

/-- Helper predicates for the whitespace-run proofs: the head of the list
(if any) is not a `p`-character. -/
def headNotP (p : Char → Bool) : List Char → Bool
  | [] => true
  | c :: _ => !p c

/-- All `p`-runs of the list are single spaces: every `p`-character is `' '`
and is not followed by another `p`-character. -/
def tidyRuns (p : Char → Bool) : List Char → Bool
  | [] => true
  | c :: cs => (if p c then ((c == ' ') && headNotP p cs) else true) && tidyRuns p cs

/-! ## Word-boundary literal search

`re.search` of `\b` + `re.escape(w)` + `\b`: the literal `w` occurs at a
position whose left and right edges both satisfy `\b` — exactly one of the
two adjacent characters (a missing neighbour at a string edge counts as a
non-word character) is a word character. -/

/-- Strip the literal `w` from the front of `t`. -/
def stripPref : List Char → List Char → Option (List Char)
  | [], t => some t
  | _ :: _, [] => none
  | a :: as, b :: bs => if a = b then stripPref as bs else none

def optIsWord : Option Char → Bool
  | none => false
  | some c => isWordB c

/-- `\b` between two adjacent positions (either may be a string edge). -/
def boundaryB (l r : Option Char) : Bool := optIsWord l != optIsWord r

/-- The pattern `\b w \b` matches at the head of `t` (with `prev` the
character just before `t`, `none` at the string start). -/
def bAt (w : List Char) (prev : Option Char) (t : List Char) : Bool :=
  match stripPref w t with
  | some rest => boundaryB prev t.head? && boundaryB w.getLast? rest.head?
  | none => false

def bSearchAux (w : List Char) (prev : Option Char) : List Char → Bool
  | [] => false
  | c :: cs => bAt w prev (c :: cs) || bSearchAux w (some c) cs

/-- `re.search(r'\b' + re.escape(w) + r'\b', t) is not None` for a
non-empty literal `w`. -/
def litBSearch (w t : List Char) : Bool := bSearchAux w none t

/-- Plain substring containment (Python `in` on strings). -/
def startsW : List Char → List Char → Bool
  | [], _ => true
  | _ :: _, [] => false
  | a :: as, b :: bs => (a = b) && startsW as bs

def isSubstr (w : List Char) : List Char → Bool
  | [] => w.isEmpty
  | c :: cs => startsW w (c :: cs) || isSubstr w cs

/-- A space-or-edge delimited occurrence of the literal `w` in `t` (used to
state the claims about tokens such as "c++" that sit between spaces). -/
def spaceDelimAt (w : List Char) (prev : Option Char) (t : List Char) : Bool :=
  match stripPref w t with
  | some rest =>
    (prev = none || prev = some ' ') && (rest.head? = none || rest.head? = some ' ')
  | none => false

def spaceDelimAux (w : List Char) (prev : Option Char) : List Char → Bool
  | [] => false
  | c :: cs => spaceDelimAt w prev (c :: cs) || spaceDelimAux w (some c) cs

def spaceDelimOccurs (w t : List Char) : Bool := spaceDelimAux w none t

/-! ## Skill vocabulary and `extract_skills` -/

def skillsLanguages : List String :=
  ["python", "java", "javascript", "typescript", "c++", "c#", "ruby", "go", "golang", "php",
   "swift", "kotlin", "rust", "scala", "perl", "r", "bash", "shell", "sql", "html", "css"]

def skillsFrameworks : List String :=
  ["react", "angular", "vue", "django", "flask", "spring", "express", "node.js", "nodejs",
   "laravel", "rails", "asp.net", ".net", "tensorflow", "pytorch", "keras", "pandas",
   "numpy", "scikit-learn", "bootstrap", "jquery", "symfony", "fastapi"]

def skillsDatabases : List String :=
  ["mysql", "postgresql", "postgres", "mongodb", "sqlite", "oracle", "sql server", "redis",
   "elasticsearch", "dynamodb", "cassandra", "mariadb", "neo4j", "couchdb", "firebase"]

def skillsCloud : List String :=
  ["aws", "azure", "gcp", "google cloud", "heroku", "digitalocean", "kubernetes", "docker",
   "terraform", "lambda", "ec2", "s3", "rds", "cloudfront", "route53", "ecs", "eks"]

def skillsTools : List String :=
  ["git", "github", "gitlab", "bitbucket", "jira", "jenkins", "travis", "circleci", "ansible",
   "puppet", "chef", "kubernetes", "docker", "nginx", "apache", "linux", "unix", "windows",
   "macos", "agile", "scrum", "kanban", "ci/cd", "cicd"]

/-- `self.all_skills`: the union of the five category lists.  Python keeps
them in a `set`; the model keeps a duplicate-free list (the two tokens
`kubernetes` and `docker` appear in two categories). -/
def all_skills : List String :=
  (skillsLanguages ++ skillsFrameworks ++ skillsDatabases ++ skillsCloud ++ skillsTools).dedup

/-- The labels whose entities the NER pass inspects. -/
def nerLabels : List String := ["PRODUCT", "ORG", "GPE"]

/-- The optional spaCy pass of `extract_skills`, with the entity scanner's
output supplied as an oracle: for each recognized entity `(text, label)`
with an accepted label, every vocabulary skill that is a substring of the
entity's lowercased text is added. -/
def nerSkills (ents : List (String × String)) : List String :=
  ents.foldl
    (fun acc e =>
      if e.2 ∈ nerLabels then
        acc ++ all_skills.filter (fun sk => isSubstr sk.data (pyLowerL e.1.data))
      else acc)
    []

/-- `JobDataProcessor.extract_skills`. `ents = none` models an unavailable
spaCy model (`nlp is None`); `ents = some es` models an available model
whose `doc.ents` (text and label of each entity) is `es`.  Python collects
the results in a `set`; the model returns the duplicate-free list in scan
order, and the claims about the result are membership statements. -/
def extract_skills (ents : Option (List (String × String))) (text : String) : List String :=
  if text.data.isEmpty then []
  else
    let t := pyLowerL text.data
    let base := all_skills.filter (fun sk => litBSearch sk.data t)
    let extra :=
      match ents with
      | some es => if t.length < 1000000 then nerSkills es else []
      | none => []
    (base ++ extra).dedup

/-! ## Location normalizer (`JobDataProcessor._normalize_location`) -/

structure LocInfo where
  city : Option String
  state : Option String
  country : Option String
  is_remote : Bool
deriving DecidableEq, Repr

/-- The three phrases whose exact (lowercased) match short-circuits to the
all-null remote result. -/
def remotePhrases : List String := ["remote", "work from home", "wfh"]

def isUpperAZ (c : Char) : Bool := 'A' ≤ c && c ≤ 'Z'

/-- `re.match(r'([^,]+),\s*([A-Z]{2})', location)`: a non-empty comma-free
group, the comma, optional whitespace, then two ASCII uppercase letters
(anything may follow).  Returns the two groups. -/
def usMatch (l : List Char) : Option (List Char × List Char) :=
  let g1 := l.takeWhile (fun c => c != ',')
  if g1.isEmpty then none
  else
    match l.drop g1.length with
    | ',' :: rest =>
      match rest.dropWhile pyIsSpace with
      | a :: b :: _ => if isUpperAZ a && isUpperAZ b then some (g1, [a, b]) else none
      | _ => none
    | _ => none

/-- The `\s*(.+)` tail of the international pattern: `\s*` is greedy but
backs off (one whitespace character at a time) until `.+` can take at
least one character, and `.` never matches a newline. -/
def intlTailGo (rest : List Char) : Nat → Option (List Char)
  | 0 =>
    match rest with
    | [] => none
    | c :: _ => if c = '\n' then none else some (rest.takeWhile (fun d => d != '\n'))
  | k + 1 =>
    match rest.drop (k + 1) with
    | [] => intlTailGo rest k
    | c :: _ =>
      if c = '\n' then intlTailGo rest k
      else some ((rest.drop (k + 1)).takeWhile (fun d => d != '\n'))

/-- `re.match(r'([^,]+),\s*(.+)', location)`: group 1 up to the first
comma, then the `\s*(.+)` tail after the comma. -/
def intlMatch (l : List Char) : Option (List Char × List Char) :=
  let g1 := l.takeWhile (fun c => c != ',')
  if g1.isEmpty then none
  else
    match l.drop g1.length with
    | ',' :: rest =>
      match intlTailGo rest (rest.takeWhile pyIsSpace).length with
      | some g2 => some (g1, g2)
      | none => none
    | _ => none

/-- `JobDataProcessor._normalize_location`.  `none` models a `None` (falsy)
location. -/
def normalize_location (loc : Option String) : LocInfo :=
  match loc with
  | none => ⟨none, none, none, true⟩
  | some s =>
    if s.data.isEmpty then ⟨none, none, none, true⟩
    else if pyLowerStr s ∈ remotePhrases then ⟨none, none, none, true⟩
    else
      let rem := litBSearch "remote".data (pyLowerL s.data)
      match usMatch s.data with
      | some (c, st) => ⟨some ⟨pyStrip c⟩, some ⟨pyStrip st⟩, some "United States", rem⟩
      | none =>
        match intlMatch s.data with
        | some (c, co) => ⟨some ⟨pyStrip c⟩, none, some ⟨pyStrip co⟩, rem⟩
        | none => ⟨some (pyStripStr s), none, none, rem⟩

/-! ## Salary parser (`JobDataProcessor._parse_salary`)

The range pattern is `(\d[\d,.]+)(?:k)?(?:\s*-\s*|\s*to\s*)(\d[\d,.]+)(?:k)?`.
Its number class `[\d,.]` is disjoint from every character that can start
the separator (`\s`, `-`, `t`) and from `k`, so the greedy scans below are
exactly Python's backtracking semantics for this pattern. -/

structure SalaryInfo where
  min : Option ℚ
  max : Option ℚ
  currency : Option String
  period : Option String
deriving DecidableEq, Repr

def isNumC (c : Char) : Bool := c.isDigit || c = ',' || c = '.'

/-- A `(\d[\d,.]+)` group at the head of the list: a digit followed by a
non-empty run of `[\d,.]`.  Returns the group and the remainder. -/
def numGroup (l : List Char) : Option (List Char × List Char) :=
  match l with
  | [] => none
  | c :: cs =>
    if c.isDigit then
      let run := cs.takeWhile isNumC
      if run.isEmpty then none else some (c :: run, cs.drop run.length)
    else none

/-- The `(?:\s*-\s*|\s*to\s*)` separator at the head of the list. -/
def sepMatch (l : List Char) : Option (List Char) :=
  match l.dropWhile pyIsSpace with
  | '-' :: r => some (r.dropWhile pyIsSpace)
  | 't' :: 'o' :: r => some (r.dropWhile pyIsSpace)
  | _ => none

/-- One attempt of the range pattern at the head of the list. -/
def rangeAt (l : List Char) : Option (List Char × List Char) :=
  match numGroup l with
  | none => none
  | some (g1, r1) =>
    let r2 := match r1 with
      | 'k' :: rk => rk
      | _ => r1
    match sepMatch r2 with
    | none => none
    | some r3 =>
      match numGroup r3 with
      | none => none
      | some (g2, _) => some (g1, g2)

/-- `re.search` of the range pattern: leftmost successful attempt. -/
def rangeSearch : List Char → Option (List Char × List Char)
  | [] => none
  | c :: cs =>
    match rangeAt (c :: cs) with
    | some g => some g
    | none => rangeSearch cs

/-- `re.search(r'(\d[\d,.]+)(?:k)?', …)`: the leftmost single number. -/
def singleSearch : List Char → Option (List Char)
  | [] => none
  | c :: cs =>
    match numGroup (c :: cs) with
    | some (g, _) => some g
    | none => singleSearch cs

/-- The value of a list of decimal digit characters. -/
def digitListVal (ds : List Char) : Nat :=
  Nat.ofDigits 10 (ds.map (fun c => c.toNat - 48)).reverse

/-- `float(...)` after `.replace(',', '')`: Python accepts a digit string
with at most one decimal point (the value is `int.frac`); two or more
points raise `ValueError`.  The value is built with `mkRat` (equal to
`int + frac / 10 ^ len`, see `pyFloat_frac_val`) so that it evaluates by
kernel reduction. -/
def pyFloat (l : List Char) : Option ℚ :=
  let intPart := l.takeWhile (fun c => c != '.')
  match l.drop intPart.length with
  | [] =>
    if intPart.isEmpty || !intPart.all Char.isDigit then none
    else some ((digitListVal intPart : ℕ) : ℚ)
  | '.' :: frac =>
    if frac.any (fun c => c = '.') then none
    else if intPart.isEmpty || !intPart.all Char.isDigit || !frac.all Char.isDigit then none
    else
      some (mkRat (digitListVal intPart * 10 ^ frac.length + digitListVal frac)
        (10 ^ frac.length))
  | _ => none

/-- The captured group, thousands separators stripped, converted by
`float` — `none` is a `ValueError`. -/
def numValue (g : List Char) : Option ℚ := pyFloat (g.filter (fun c => c != ','))

/-- `if 'k' in salary_text: val = float(val) * 1000 else: val = float(val)`.
The multiplication is written with `mkRat` (equal to `v * 1000`, see
`kMul_eq`) so that it evaluates by kernel reduction. -/
def kMul (t : List Char) (v : ℚ) : ℚ :=
  if t.contains 'k' then mkRat (v.num * 1000) v.den else v

/-- The currency map, in its Python insertion order; the first symbol that
is a substring of the lowercased text wins. -/
def currencyTable : List (String × String) :=
  [("$", "USD"), ("£", "GBP"), ("€", "EUR"), ("¥", "JPY"),
   ("usd", "USD"), ("gbp", "GBP"), ("eur", "EUR"), ("jpy", "JPY")]

def currencyScan (t : List Char) : Option String :=
  (currencyTable.find? (fun e => isSubstr e.1.data t)).map (fun e => e.2)

/-- The period patterns, in their Python insertion order; each pattern is a
`\b(alt|…)\b` alternation and the first key whose pattern has a match in
the text wins. -/
def periodTable : List (String × List String) :=
  [("year", ["year", "yearly", "annual", "per year", "/year", "p.a."]),
   ("month", ["month", "monthly", "per month", "/month"]),
   ("week", ["week", "weekly", "per week", "/week"]),
   ("hour", ["hour", "hourly", "per hour", "/hour"]),
   ("day", ["day", "daily", "per day", "/day"])]

def periodScan (t : List Char) : Option String :=
  (periodTable.find? (fun e => e.2.any (fun alt => litBSearch alt.data t))).map (fun e => e.1)

/-- `JobDataProcessor._parse_salary` for a `str` argument.  The result
`none` models an uncaught `ValueError` from `float(...)`; `some info` is a
normal return. -/
def parse_salary (s : String) : Option SalaryInfo :=
  if s.data.isEmpty then some ⟨none, none, none, none⟩
  else
    let t := pyLowerL s.data
    let cur := currencyScan t
    let per := periodScan t
    match rangeSearch t with
    | some (g1, g2) =>
      match numValue g1, numValue g2 with
      | some v1, some v2 => some ⟨some (kMul t v1), some (kMul t v2), cur, per⟩
      | _, _ => none
    | none =>
      match singleSearch t with
      | some g =>
        match numValue g with
        | some v => some ⟨some (kMul t v), some (kMul t v), cur, per⟩
        | none => none
      | none => some ⟨none, none, cur, per⟩

/-! ## Date normalizer (`JobDataProcessor._parse_date`)

Python's `datetime` Gregorian calendar: `toOrdinal`/`fromOrdinal` follow
CPython's `_ymd2ord`/`_ord2ymd` (ordinal 1 = 0001-01-01).  `datetime.now()`
is modelled by an explicit `today` parameter. -/

structure PyDate where
  year : Nat
  month : Nat
  day : Nat
deriving DecidableEq, Repr

def isLeapYear (y : Nat) : Bool := y % 4 = 0 && (y % 100 != 0 || y % 400 = 0)

def daysInMonth (y m : Nat) : Nat :=
  if m = 2 then (if isLeapYear y then 29 else 28)
  else if m = 4 || m = 6 || m = 9 || m = 11 then 30
  else 31

def daysBeforeYear (y : Nat) : Nat :=
  (y - 1) * 365 + (y - 1) / 4 - (y - 1) / 100 + (y - 1) / 400

def daysBeforeMonth (y : Nat) : Nat → Nat
  | 0 => 0
  | 1 => 0
  | m + 1 => daysBeforeMonth y m + daysInMonth y m

def toOrdinal (d : PyDate) : Nat :=
  daysBeforeYear d.year + daysBeforeMonth d.year d.month + d.day

/-- Find the month containing the 0-based day-of-year `doy`. -/
def monthSearch (y : Nat) : Nat → Nat → Nat → PyDate
  | doy, m, 0 => ⟨y, m, doy + 1⟩
  | doy, m, fuel + 1 =>
    if doy < daysInMonth y m then ⟨y, m, doy + 1⟩
    else monthSearch y (doy - daysInMonth y m) (m + 1) fuel

/-- CPython `_ord2ymd`: 400/100/4/1-year cycles with the two end-of-cycle
corrections. -/
def fromOrdinal (n : Nat) : PyDate :=
  let n0 := n - 1
  let n400 := n0 / 146097
  let r1 := n0 % 146097
  let n100 := r1 / 36524
  let r2 := r1 % 36524
  let n4 := r2 / 1461
  let r3 := r2 % 1461
  let n1 := r3 / 365
  let r4 := r3 % 365
  let year := n400 * 400 + n100 * 100 + n4 * 4 + n1 + 1
  if n1 = 4 || n100 = 4 then ⟨year - 1, 12, 31⟩
  else monthSearch year r4 1 12

/-- `date - timedelta(days = n)`: `None` models the `OverflowError` raised
when the result precedes `date.min` (ordinal 1). -/
def subDays (d : PyDate) (n : Nat) : Option PyDate :=
  if n < toOrdinal d then some (fromOrdinal (toOrdinal d - n)) else none

def padZeros (k : Nat) (s : String) : String :=
  ⟨List.replicate (k - s.data.length) '0' ++ s.data⟩

/-- `date.strftime('%Y-%m-%d')` (with `%Y` zero-padded to four digits). -/
def formatDate (d : PyDate) : String :=
  padZeros 4 (toString d.year) ++ "-" ++ padZeros 2 (toString d.month) ++ "-" ++
    padZeros 2 (toString d.day)

inductive RelUnit where
  | dayU : RelUnit
  | weekU : RelUnit
  | monthU : RelUnit
deriving DecidableEq, Repr

/-- `timedelta(days=num)`, `timedelta(weeks=num)`, `timedelta(days=num*30)`
per unit. -/
def unitDays : RelUnit → Nat
  | .dayU => 1
  | .weekU => 7
  | .monthU => 30

def digitsToNat (ds : List Char) : Nat :=
  ds.foldl (fun acc c => acc * 10 + (c.toNat - 48)) 0

/-- After `<digits>\s+`, one unit alternative followed by `\s+ago`,
tried in the pattern's order `day|days|week|weeks|month|months`. -/
def unitCont (w : List Char) (u : RelUnit) (l : List Char) : Option RelUnit :=
  match stripPref w l with
  | none => none
  | some r =>
    let ws := r.takeWhile pyIsSpace
    if ws.isEmpty then none
    else if startsW "ago".data (r.drop ws.length) then some u else none

/-- One attempt of `(\d+)\s+(day|days|week|weeks|month|months)\s+ago` at
the head of the list. -/
def relAt (l : List Char) : Option (Nat × RelUnit) :=
  let ds := l.takeWhile Char.isDigit
  if ds.isEmpty then none
  else
    let r1 := l.drop ds.length
    let ws := r1.takeWhile pyIsSpace
    if ws.isEmpty then none
    else
      let r2 := r1.drop ws.length
      match unitCont "day".data .dayU r2 with
      | some u => some (digitsToNat ds, u)
      | none =>
        match unitCont "days".data .dayU r2 with
        | some u => some (digitsToNat ds, u)
        | none =>
          match unitCont "week".data .weekU r2 with
          | some u => some (digitsToNat ds, u)
          | none =>
            match unitCont "weeks".data .weekU r2 with
            | some u => some (digitsToNat ds, u)
            | none =>
              match unitCont "month".data .monthU r2 with
              | some u => some (digitsToNat ds, u)
              | none =>
                match unitCont "months".data .monthU r2 with
                | some u => some (digitsToNat ds, u)
                | none => none

/-- `re.search` of the relative-date pattern: leftmost successful attempt. -/
def relSearch : List Char → Option (Nat × RelUnit)
  | [] => none
  | c :: cs =>
    match relAt (c :: cs) with
    | some r => some r
    | none => relSearch cs

/-! ### Absolute date formats

The fallback loop of `_parse_date` tries
`['%Y-%m-%d', '%d/%m/%Y', '%m/%d/%Y', '%B %d, %Y', '%b %d, %Y',
'%d %B %Y', '%d %b %Y']` in order with `datetime.strptime`, which compiles
`%Y` to four digits, `%m` to `1[0-2]|0[1-9]|[1-9]`, `%d` to
`3[01]|[12]\d|0[1-9]|[1-9]`, month names to a longest-first alternation
(case-insensitive; the input is already lowercased), a space to `\s+`, and
requires the whole string to be consumed; an impossible calendar date
raises `ValueError` and the next format is tried. -/

def pLit (c : Char) (l : List Char) : Option (List Char) :=
  match l with
  | d :: r => if d = c then some r else none
  | [] => none

def pWS (l : List Char) : Option (List Char) :=
  let ws := l.takeWhile pyIsSpace
  if ws.isEmpty then none else some (l.drop ws.length)

def p4d (l : List Char) : Option (Nat × List Char) :=
  match l with
  | a :: b :: c :: d :: r =>
    if a.isDigit && b.isDigit && c.isDigit && d.isDigit then
      some (digitsToNat [a, b, c, d], r)
    else none
  | _ => none

def pMonthNum (l : List Char) : Option (Nat × List Char) :=
  match l with
  | '1' :: c :: r =>
    if '0' ≤ c && c ≤ '2' then some (10 + (c.toNat - 48), r) else some (1, c :: r)
  | '0' :: c :: r => if '1' ≤ c && c ≤ '9' then some (c.toNat - 48, r) else none
  | c :: r => if '1' ≤ c && c ≤ '9' then some (c.toNat - 48, r) else none
  | [] => none

def pDayNum (l : List Char) : Option (Nat × List Char) :=
  match l with
  | '3' :: c :: r =>
    if c = '0' || c = '1' then some (30 + (c.toNat - 48), r) else some (3, c :: r)
  | a :: c :: r =>
    if (a = '1' || a = '2') && c.isDigit then
      some ((a.toNat - 48) * 10 + (c.toNat - 48), r)
    else if a = '0' then
      if '1' ≤ c && c ≤ '9' then some (c.toNat - 48, r) else none
    else if '1' ≤ a && a ≤ '9' then some (a.toNat - 48, c :: r)
    else none
  | [a] => if '1' ≤ a && a ≤ '9' then some (a.toNat - 48, []) else none
  | [] => none

def monthsFullOrdered : List (String × Nat) :=
  [("september", 9), ("february", 2), ("november", 11), ("december", 12),
   ("january", 1), ("october", 10), ("august", 8), ("march", 3), ("april", 4),
   ("june", 6), ("july", 7), ("may", 5)]

def monthsAbbrOrdered : List (String × Nat) :=
  [("jan", 1), ("feb", 2), ("mar", 3), ("apr", 4), ("may", 5), ("jun", 6),
   ("jul", 7), ("aug", 8), ("sep", 9), ("oct", 10), ("nov", 11), ("dec", 12)]

def pName : List (String × Nat) → List Char → Option (Nat × List Char)
  | [], _ => none
  | (nm, v) :: rest, l =>
    match stripPref nm.data l with
    | some r => some (v, r)
    | none => pName rest l

/-- `datetime(year, month, day)` validity (raises `ValueError` otherwise). -/
def mkValidDate (y m d : Nat) : Option PyDate :=
  if 1 ≤ y && y ≤ 9999 && 1 ≤ m && m ≤ 12 && 1 ≤ d && d ≤ daysInMonth y m then
    some ⟨y, m, d⟩
  else none

def fmtYmd (l : List Char) : Option PyDate := do
  let (y, r1) ← p4d l
  let r2 ← pLit '-' r1
  let (m, r3) ← pMonthNum r2
  let r4 ← pLit '-' r3
  let (d, r5) ← pDayNum r4
  if r5.isEmpty then mkValidDate y m d else none

def fmtDmy (l : List Char) : Option PyDate := do
  let (d, r1) ← pDayNum l
  let r2 ← pLit '/' r1
  let (m, r3) ← pMonthNum r2
  let r4 ← pLit '/' r3
  let (y, r5) ← p4d r4
  if r5.isEmpty then mkValidDate y m d else none

def fmtMdy (l : List Char) : Option PyDate := do
  let (m, r1) ← pMonthNum l
  let r2 ← pLit '/' r1
  let (d, r3) ← pDayNum r2
  let r4 ← pLit '/' r3
  let (y, r5) ← p4d r4
  if r5.isEmpty then mkValidDate y m d else none

def fmtBdY (table : List (String × Nat)) (l : List Char) : Option PyDate := do
  let (m, r1) ← pName table l
  let r2 ← pWS r1
  let (d, r3) ← pDayNum r2
  let r4 ← pLit ',' r3
  let r5 ← pWS r4
  let (y, r6) ← p4d r5
  if r6.isEmpty then mkValidDate y m d else none

def fmtDBY (table : List (String × Nat)) (l : List Char) : Option PyDate := do
  let (d, r1) ← pDayNum l
  let r2 ← pWS r1
  let (m, r3) ← pName table r2
  let r4 ← pWS r3
  let (y, r5) ← p4d r4
  if r5.isEmpty then mkValidDate y m d else none

def tryFormats (l : List Char) : Option String :=
  match fmtYmd l with
  | some d => some (formatDate d)
  | none =>
    match fmtDmy l with
    | some d => some (formatDate d)
    | none =>
      match fmtMdy l with
      | some d => some (formatDate d)
      | none =>
        match fmtBdY monthsFullOrdered l with
        | some d => some (formatDate d)
        | none =>
          match fmtBdY monthsAbbrOrdered l with
          | some d => some (formatDate d)
          | none =>
            match fmtDBY monthsFullOrdered l with
            | some d => some (formatDate d)
            | none =>
              match fmtDBY monthsAbbrOrdered l with
              | some d => some (formatDate d)
              | none => none

/-- `JobDataProcessor._parse_date` for a `str` argument, with
`datetime.now()` supplied as `today`.  The outer `none` models an uncaught
`OverflowError` (relative date before `date.min`); `some none` is the
Python `None` return; `some (some s)` is an ISO date string. -/
def parse_date (today : PyDate) (s : String) : Option (Option String) :=
  if s.data.isEmpty then some none
  else
    let t := pyStrip (pyLowerL s.data)
    match relSearch t with
    | some (n, u) =>
      match subDays today (n * unitDays u) with
      | some d => some (some (formatDate d))
      | none => none
    | none => some (tryFormats t)

/-! ## Batch cleaning and deduplication (`JobDataProcessor._clean_data`)

A record is modelled with the four text columns the method cleans plus an
opaque payload `extra` standing for all the other fields of the row.
`fillna('')` turns an absent value into `""`; `drop_duplicates(subset=
['title', 'company'])` keeps the first record of each key in row order. -/

structure RawJob where
  title : Option String
  company : Option String
  description : Option String
  location : Option String
  extra : Nat
deriving DecidableEq, Repr

structure CleanJob where
  title : String
  company : String
  description : String
  location : String
  extra : Nat
deriving DecidableEq, Repr

def cleanJob (r : RawJob) : CleanJob :=
  ⟨clean_text (r.title.getD ""), clean_text (r.company.getD ""),
   clean_text (r.description.getD ""), clean_text (r.location.getD ""), r.extra⟩

def jobKey (c : CleanJob) : String × String := (c.title, c.company)

/-- `drop_duplicates(subset=['title', 'company'])`: keep a row iff its key
has not been seen before. -/
def dedupAux : List (String × String) → List CleanJob → List CleanJob
  | _, [] => []
  | seen, r :: rs =>
    if jobKey r ∈ seen then dedupAux seen rs
    else r :: dedupAux (jobKey r :: seen) rs

/-- `JobDataProcessor._clean_data`: clean the text columns, then
deduplicate on `(title, company)` keeping first occurrences. -/
def clean_data (batch : List RawJob) : List CleanJob :=
  dedupAux [] (batch.map cleanJob)

/-! # Theorems

## Lemmas about the tag substitution -/

theorem afterGt_eq_none {l : List Char} : afterGt l = none ↔ '>' ∉ l := by
  induction l with
  | nil => simp [afterGt]
  | cons c cs ih =>
    by_cases h : c = '>'
    · subst h; simp [afterGt]
    · rw [show afterGt (c :: cs) = afterGt cs by simp [afterGt, h], ih]
      constructor
      · intro hn hm
        rcases List.mem_cons.1 hm with e | e
        · exact h e.symm
        · exact hn e
      · intro hn hm
        exact hn (List.mem_cons_of_mem _ hm)

theorem afterGt_isSome_append {l : List Char} (w : List Char)
    (h : (afterGt l).isSome = true) : (afterGt (l ++ w)).isSome = true := by
  induction l with
  | nil => simp [afterGt] at h
  | cons c cs ih =>
    by_cases hc : c = '>'
    · subst hc; simp [afterGt]
    · simp only [afterGt, if_neg hc] at h
      simpa [afterGt, hc] using ih h

theorem hasTag_cons (c : Char) (cs : List Char) :
    hasTag (c :: cs) = (((c == '<') && tagStart cs) || hasTag cs) := rfl

theorem hasTag_false_parts {c : Char} {cs : List Char}
    (h : hasTag (c :: cs) = false) :
    ((c == '<') && tagStart cs) = false ∧ hasTag cs = false := by
  rw [hasTag_cons] at h
  constructor
  · revert h; cases ((c == '<') && tagStart cs) <;> simp
  · revert h; cases hasTag cs <;> simp

theorem hasTag_tail {c : Char} {cs : List Char} (h : hasTag (c :: cs) = false) :
    hasTag cs = false := (hasTag_false_parts h).2

theorem gtFree_hasTag {l : List Char} (h : '>' ∉ l) : hasTag l = false := by
  induction l with
  | nil => rfl
  | cons c cs ih =>
    have h1 : '>' ∉ cs := fun hm => h (List.mem_cons_of_mem _ hm)
    rw [hasTag_cons, ih h1, Bool.or_false]
    cases cs with
    | nil => simp [tagStart]
    | cons d ds =>
      have hds : '>' ∉ ds := fun hm => h1 (List.mem_cons_of_mem _ hm)
      simp [tagStart, afterGt_eq_none.2 hds]

theorem stAux_some_gtFree {l : List Char} (h : '>' ∉ l) :
    ∀ buf, stAux (some buf) l = '<' :: (buf.reverse ++ l) := by
  induction l with
  | nil => intro buf; simp [stAux]
  | cons e es ih =>
    intro buf
    have he : ¬ e = '>' := fun x => h (by simp [x])
    have hes : '>' ∉ es := fun hm => h (List.mem_cons_of_mem _ hm)
    simp [stAux, he, ih hes (e :: buf), List.append_assoc]

/-- When the text contains no match of `<[^>]+>`, the substitution is the
identity. -/
theorem stripTags_eq_self {l : List Char} (h : hasTag l = false) :
    stripTags l = l := by
  unfold stripTags
  induction l with
  | nil => rfl
  | cons c cs ih =>
    obtain ⟨h1, h2⟩ := hasTag_false_parts h
    by_cases hc : c = '<'
    · subst hc
      have hts : tagStart cs = false := by simpa using h1
      cases cs with
      | nil => simp [stAux]
      | cons d ds =>
        by_cases hd : d = '>'
        · subst hd
          have h4 : stAux none ('>' :: ds) = '>' :: ds := ih h2
          have h5 : stAux none ('>' :: ds) = '>' :: stAux none ds := by
            simp [stAux]
          have h6 : stAux none ds = ds := (List.cons.inj (h5.symm.trans h4)).2
          simp [stAux, h6]
        · have hds : '>' ∉ ds := by
            have : (afterGt ds).isSome = false := by
              simpa [tagStart, hd] using hts
            exact afterGt_eq_none.1 (by cases h : afterGt ds with
              | none => rfl
              | some v => rw [h] at this; simp at this)
          simp [stAux, hd, stAux_some_gtFree hds [d]]
    · simp [stAux, hc, ih h2]

/-- The substitution's output contains no match of `<[^>]+>`. -/
theorem hasTag_stAux (l : List Char) :
    hasTag (stAux none l) = false ∧
      ∀ buf, '>' ∉ buf → hasTag (stAux (some buf) l) = false := by
  induction l with
  | nil =>
    refine ⟨rfl, fun buf hb => ?_⟩
    refine gtFree_hasTag ?_
    simp [stAux]
    exact fun h => hb (by simpa using h)
  | cons c cs ih =>
    constructor
    · by_cases hc : c = '<'
      · subst hc
        simpa [stAux] using ih.2 [] (by simp)
      · have : (c == '<') = false := by simp [hc]
        simp [stAux, hc, hasTag_cons, this, ih.1]
    · intro buf hb
      by_cases hc : c = '>'
      · subst hc
        cases buf with
        | nil => simp [stAux, hasTag_cons, tagStart, ih.1]
        | cons b bs => simp [stAux, hasTag_cons, ih.1]
      · have hnb : '>' ∉ c :: buf := by
          intro hm
          rcases List.mem_cons.1 hm with h | h
          · exact hc h.symm
          · exact hb h
        simp [stAux, hc, ih.2 (c :: buf) hnb]

theorem hasTag_stripTags (l : List Char) : hasTag (stripTags l) = false :=
  (hasTag_stAux l).1

/-! ## Lemmas about the whitespace substitutions -/

theorem mem_collapseAux {p : Char → Bool} {a : Char} :
    ∀ {b : Bool} {l : List Char}, a ∈ collapseAux p b l →
      a = ' ' ∨ (a ∈ l ∧ p a = false) := by
  intro b l
  induction l generalizing b with
  | nil => intro h; simp [collapseAux] at h
  | cons c cs ih =>
    intro h
    simp only [collapseAux] at h
    by_cases hp : p c
    · rw [if_pos hp] at h
      cases b with
      | true =>
        rcases ih h with h1 | ⟨h1, h2⟩
        · exact Or.inl h1
        · exact Or.inr ⟨List.mem_cons_of_mem _ h1, h2⟩
      | false =>
        rcases List.mem_cons.1 h with h1 | h1
        · exact Or.inl h1
        · rcases ih h1 with h2 | ⟨h2, h3⟩
          · exact Or.inl h2
          · exact Or.inr ⟨List.mem_cons_of_mem _ h2, h3⟩
    · rw [if_neg hp] at h
      rcases List.mem_cons.1 h with h1 | h1
      · subst h1; exact Or.inr ⟨List.mem_cons_self _ _, by simpa using hp⟩
      · rcases ih h1 with h2 | ⟨h2, h3⟩
        · exact Or.inl h2
        · exact Or.inr ⟨List.mem_cons_of_mem _ h2, h3⟩

theorem hasTag_collapseAux {p : Char → Bool} (hlt : p '<' = false)
    (hgt : p '>' = false) :
    ∀ {l : List Char} (b : Bool), hasTag l = false →
      hasTag (collapseAux p b l) = false := by
  intro l
  induction l with
  | nil => intro b _; cases b <;> rfl
  | cons c cs ih =>
    intro b h
    obtain ⟨h1, h2⟩ := hasTag_false_parts h
    by_cases hp : p c
    · have hc : (c == '<') = false := by
        cases e : c == '<'
        · rfl
        · rw [show c = '<' from by simpa using e, hlt] at hp; simp at hp
      cases b with
      | true => simpa [collapseAux, hp] using ih true h2
      | false =>
        have hXf := ih true h2
        have hsp : (' ' == '<') = false := by decide
        simp [collapseAux, hp, hasTag_cons, hXf, hsp]
    · have hout : ∀ b' : Bool, collapseAux p b' (c :: cs) = c :: collapseAux p false cs := by
        intro b'; cases b' <;> simp [collapseAux, hp]
      rw [hout b]
      by_cases hc : c = '<'
      · subst hc
        have hts : tagStart cs = false := by simpa using h1
        cases cs with
        | nil => simp [hasTag_cons, tagStart, collapseAux, hasTag]
        | cons d ds =>
          rw [hasTag_cons]
          rw [ih false h2, Bool.or_false]
          by_cases hd : d = '>'
          · subst hd
            have hX : collapseAux p false ('>' :: ds) = '>' :: collapseAux p false ds := by
              simp [collapseAux, hgt]
            rw [hX]
            simp [tagStart]
          · have hds : '>' ∉ ds := by
              have hsome : (afterGt ds).isSome = false := by
                simpa [tagStart, hd] using hts
              refine afterGt_eq_none.1 ?_
              cases hagt : afterGt ds with
              | none => rfl
              | some v => rw [hagt] at hsome; simp at hsome
            have hmem : '>' ∉ collapseAux p false (d :: ds) := by
              intro hm
              rcases mem_collapseAux hm with e | ⟨e, _⟩
              · simp at e
              · rcases List.mem_cons.1 e with e1 | e1
                · exact hd e1.symm
                · exact hds e1
            cases hXv : collapseAux p false (d :: ds) with
            | nil => simp [tagStart]
            | cons e es =>
              have he : ¬ e = '>' := by
                intro ee; rw [hXv] at hmem
                exact hmem (by simp [ee])
              have hes : '>' ∉ es := by
                intro hm; rw [hXv] at hmem
                exact hmem (List.mem_cons_of_mem _ hm)
              simp [tagStart, he, afterGt_eq_none.2 hes]
      · rw [hasTag_cons]
        simp [hc, ih false h2]

theorem tagStart_append {l : List Char} (w : List Char)
    (h : tagStart l = true) : tagStart (l ++ w) = true := by
  cases l with
  | nil => simp [tagStart] at h
  | cons d ds =>
    simp only [tagStart, Bool.and_eq_true] at h
    simp [tagStart, h.1, afterGt_isSome_append w h.2]

theorem hasTag_append_left {l w : List Char} (h : hasTag (l ++ w) = false) :
    hasTag l = false := by
  induction l with
  | nil => rfl
  | cons c cs ih =>
    rw [List.cons_append] at h
    obtain ⟨h1, h2⟩ := hasTag_false_parts h
    rw [hasTag_cons, ih h2, Bool.or_false]
    cases hc : (c == '<') with
    | false => rfl
    | true =>
      rw [hc, Bool.true_and] at h1
      cases hts : tagStart cs with
      | false => simp
      | true => rw [tagStart_append w hts] at h1; simp at h1

theorem hasTag_dropWhile (q : Char → Bool) {l : List Char}
    (h : hasTag l = false) : hasTag (l.dropWhile q) = false := by
  induction l with
  | nil => simpa using h
  | cons c cs ih =>
    rw [List.dropWhile_cons]
    by_cases hq : q c
    · simpa [hq] using ih (hasTag_tail h)
    · simpa [hq] using h

theorem splitTrail (p : Char → Bool) (l : List Char) :
    l = dropTrail p l ++ (l.reverse.takeWhile p).reverse := by
  have h := List.takeWhile_append_dropWhile (p := p) (l := l.reverse)
  calc l = l.reverse.reverse := (l.reverse_reverse).symm
    _ = (l.reverse.takeWhile p ++ l.reverse.dropWhile p).reverse := by rw [h]
    _ = (l.reverse.dropWhile p).reverse ++ (l.reverse.takeWhile p).reverse := by
        rw [List.reverse_append]
    _ = dropTrail p l ++ (l.reverse.takeWhile p).reverse := rfl

theorem hasTag_dropTrail (p : Char → Bool) {l : List Char}
    (h : hasTag l = false) : hasTag (dropTrail p l) = false := by
  refine hasTag_append_left (w := (l.reverse.takeWhile p).reverse) ?_
  rw [← splitTrail]; exact h

theorem hasTag_pyStrip {l : List Char} (h : hasTag l = false) :
    hasTag (pyStrip l) = false :=
  hasTag_dropTrail _ (hasTag_dropWhile _ h)

/-! ## Tidy runs: the output shape of the whitespace collapse -/

theorem tidyRuns_cons_parts {p : Char → Bool} {c : Char} {cs : List Char}
    (h : tidyRuns p (c :: cs) = true) :
    (if p c then ((c == ' ') && headNotP p cs) else true) = true ∧
      tidyRuns p cs = true := by
  simpa [tidyRuns, Bool.and_eq_true] using h

theorem collapseAux_true_of_headNot {p : Char → Bool} {l : List Char}
    (h : headNotP p l = true) : collapseAux p true l = collapseAux p false l := by
  cases l with
  | nil => rfl
  | cons c cs =>
    have hp : p c = false := by simpa [headNotP] using h
    simp [collapseAux, hp]

theorem collapseAux_eq_self_of_tidy {p : Char → Bool} :
    ∀ {l : List Char}, tidyRuns p l = true → collapseAux p false l = l := by
  intro l
  induction l with
  | nil => intro _; rfl
  | cons c cs ih =>
    intro h
    obtain ⟨h1, h2⟩ := tidyRuns_cons_parts h
    by_cases hp : p c
    · rw [if_pos hp, Bool.and_eq_true] at h1
      have hc : c = ' ' := by simpa using h1.1
      rw [show collapseAux p false (c :: cs) = ' ' :: collapseAux p true cs from by
        simp [collapseAux, hp]]
      rw [collapseAux_true_of_headNot h1.2, ih h2, hc]
    · simp [collapseAux, hp, ih h2]

theorem tidy_collapseAux {p : Char → Bool} :
    ∀ (l : List Char) (b : Bool),
      tidyRuns p (collapseAux p b l) = true ∧
        (b = true → headNotP p (collapseAux p b l) = true) := by
  intro l
  induction l with
  | nil => intro b; refine ⟨by cases b <;> rfl, fun _ => by simp [collapseAux, headNotP]⟩
  | cons c cs ih =>
    intro b
    by_cases hp : p c
    · cases b with
      | true => simpa [collapseAux, hp] using ih true
      | false =>
        have hX := ih true
        constructor
        · rw [show collapseAux p false (c :: cs) = ' ' :: collapseAux p true cs from by
            simp [collapseAux, hp]]
          rw [show tidyRuns p (' ' :: collapseAux p true cs) =
            ((if p ' ' then ((' ' == ' ') && headNotP p (collapseAux p true cs)) else true) &&
              tidyRuns p (collapseAux p true cs)) from rfl]
          by_cases hsp : p ' '
          · simp [hsp, hX.1, hX.2 rfl]
          · simp [hsp, hX.1]
        · intro hb; simp at hb
    · have hout : collapseAux p b (c :: cs) = c :: collapseAux p false cs := by
        cases b <;> simp [collapseAux, hp]
      rw [hout]
      constructor
      · rw [show tidyRuns p (c :: collapseAux p false cs) =
          ((if p c then ((c == ' ') && headNotP p (collapseAux p false cs)) else true) &&
            tidyRuns p (collapseAux p false cs)) from rfl]
        simp [hp, (ih false).1]
      · intro _; simp [headNotP, hp]

theorem tidy_tail {p : Char → Bool} {c : Char} {cs : List Char}
    (h : tidyRuns p (c :: cs) = true) : tidyRuns p cs = true :=
  (tidyRuns_cons_parts h).2

theorem tidy_dropWhile {p : Char → Bool} (q : Char → Bool) {l : List Char}
    (h : tidyRuns p l = true) : tidyRuns p (l.dropWhile q) = true := by
  induction l with
  | nil => simpa using h
  | cons c cs ih =>
    rw [List.dropWhile_cons]
    by_cases hq : q c
    · simpa [hq] using ih (tidy_tail h)
    · simpa [hq] using h

theorem headNotP_append {p : Char → Bool} {l : List Char} (w : List Char)
    (h : headNotP p (l ++ w) = true) : headNotP p l = true := by
  cases l with
  | nil => rfl
  | cons c cs => simpa [headNotP] using h

theorem tidy_append_left {p : Char → Bool} {l w : List Char}
    (h : tidyRuns p (l ++ w) = true) : tidyRuns p l = true := by
  induction l with
  | nil => rfl
  | cons c cs ih =>
    rw [List.cons_append] at h
    obtain ⟨h1, h2⟩ := tidyRuns_cons_parts h
    rw [show tidyRuns p (c :: cs) =
      ((if p c then ((c == ' ') && headNotP p cs) else true) && tidyRuns p cs) from rfl]
    rw [ih h2, Bool.and_true]
    by_cases hp : p c
    · rw [if_pos hp] at h1 ⊢
      rw [Bool.and_eq_true] at h1
      simp [h1.1, headNotP_append w h1.2]
    · rw [if_neg hp]
  

theorem tidy_dropTrail {p : Char → Bool} (q : Char → Bool) {l : List Char}
    (h : tidyRuns p l = true) : tidyRuns p (dropTrail q l) = true := by
  refine tidy_append_left (w := (l.reverse.takeWhile q).reverse) ?_
  rw [← splitTrail]; exact h

theorem tidy_pyStrip {l : List Char} (h : tidyRuns p l = true) :
    tidyRuns p (pyStrip l) = true :=
  tidy_dropTrail _ (tidy_dropWhile _ h)

theorem collapseAux_eq_self_of_not_mem {p : Char → Bool} :
    ∀ {l : List Char} (b : Bool), (∀ a ∈ l, p a = false) → collapseAux p b l = l := by
  intro l
  induction l with
  | nil => intro b _; rfl
  | cons c cs ih =>
    intro b h
    have hp : p c = false := h c (List.mem_cons_self _ _)
    have hcs : ∀ a ∈ cs, p a = false := fun a ha => h a (List.mem_cons_of_mem _ ha)
    simp [collapseAux, hp, ih false hcs]

theorem mem_of_mem_dropWhile {q : Char → Bool} {a : Char} :
    ∀ {l : List Char}, a ∈ l.dropWhile q → a ∈ l := by
  intro l
  induction l with
  | nil => intro h; simp at h
  | cons c cs ih =>
    intro h
    rw [List.dropWhile_cons] at h
    by_cases hq : q c
    · rw [if_pos hq] at h; exact List.mem_cons_of_mem _ (ih h)
    · rwa [if_neg hq] at h

theorem mem_of_mem_dropTrail {q : Char → Bool} {a : Char} {l : List Char}
    (h : a ∈ dropTrail q l) : a ∈ l := by
  unfold dropTrail at h
  rw [List.mem_reverse] at h
  have := mem_of_mem_dropWhile h
  rwa [List.mem_reverse] at this

theorem mem_of_mem_pyStrip {a : Char} {l : List Char} (h : a ∈ pyStrip l) :
    a ∈ l :=
  mem_of_mem_dropWhile (mem_of_mem_dropTrail h)

theorem isNTR_isSpace {a : Char} (h : isNTR a = true) : pyIsSpace a = true := by
  simp only [isNTR, Bool.or_eq_true, decide_eq_true_eq] at h
  rcases h with (h | h) | h <;> subst h <;> decide

/-! ## `strip()` is idempotent -/

theorem dropWhile_dropWhile (q : Char → Bool) (l : List Char) :
    (l.dropWhile q).dropWhile q = l.dropWhile q := by
  induction l with
  | nil => rfl
  | cons c cs ih =>
    rw [List.dropWhile_cons]
    by_cases hq : q c
    · simpa [hq] using ih
    · simp [hq, List.dropWhile_cons]

theorem dropTrail_dropTrail (q : Char → Bool) (l : List Char) :
    dropTrail q (dropTrail q l) = dropTrail q l := by
  unfold dropTrail
  rw [List.reverse_reverse, dropWhile_dropWhile]

theorem length_dropWhile_le (q : Char → Bool) (l : List Char) :
    (l.dropWhile q).length ≤ l.length := by
  induction l with
  | nil => simp
  | cons c cs ih =>
    rw [List.dropWhile_cons]
    by_cases hq : q c
    · rw [if_pos hq]
      exact Nat.le_trans ih (by simp)
    · rw [if_neg hq]

theorem dropWhile_dropTrail {q : Char → Bool} {l : List Char}
    (h : l.dropWhile q = l) : (dropTrail q l).dropWhile q = dropTrail q l := by
  cases hv : dropTrail q l with
  | nil => rfl
  | cons a t =>
    have hsplit : l = a :: (t ++ (l.reverse.takeWhile q).reverse) := by
      have hs := splitTrail q l
      rw [hv] at hs
      simpa using hs
    have ha : q a = false := by
      cases e : q a
      · rfl
      · exfalso
        have h2 : l.dropWhile q = (t ++ (l.reverse.takeWhile q).reverse).dropWhile q := by
          conv_lhs => rw [hsplit]
          rw [List.dropWhile_cons, if_pos e]
        have h3 : l = (t ++ (l.reverse.takeWhile q).reverse).dropWhile q :=
          h.symm.trans h2
        have hlen := length_dropWhile_le q (t ++ (l.reverse.takeWhile q).reverse)
        rw [← h3] at hlen
        have hlen2 := congrArg List.length hsplit
        simp only [List.length_cons, List.length_append] at hlen2
        simp only [List.length_append] at hlen
        omega
    simp [List.dropWhile_cons, ha]

theorem pyStrip_pyStrip (l : List Char) : pyStrip (pyStrip l) = pyStrip l := by
  unfold pyStrip
  rw [dropWhile_dropTrail (dropWhile_dropWhile pyIsSpace l), dropTrail_dropTrail]

/-! ## Idempotence of the cleaning pipeline -/

theorem cleanPipe_idem (l : List Char) : cleanPipe (cleanPipe l) = cleanPipe l := by
  have hT : hasTag (cleanPipe l) = false := by
    refine hasTag_pyStrip ?_
    refine hasTag_collapseAux (by decide) (by decide) false ?_
    refine hasTag_collapseAux (by decide) (by decide) false ?_
    exact hasTag_stripTags l
  have h1 : stripTags (cleanPipe l) = cleanPipe l := stripTags_eq_self hT
  have hNTR : ∀ a ∈ cleanPipe l, isNTR a = false := by
    intro a ha
    have ha2 := mem_of_mem_pyStrip ha
    rcases mem_collapseAux ha2 with e | ⟨_, e⟩
    · subst e; decide
    · cases hn : isNTR a with
      | false => rfl
      | true => rw [isNTR_isSpace hn] at e; simp at e
  have h2 : collapseRuns isNTR (cleanPipe l) = cleanPipe l :=
    collapseAux_eq_self_of_not_mem false hNTR
  have hTidy : tidyRuns pyIsSpace (cleanPipe l) = true :=
    tidy_pyStrip (tidy_collapseAux _ false).1
  have h3 : collapseRuns pyIsSpace (cleanPipe l) = cleanPipe l :=
    collapseAux_eq_self_of_tidy hTidy
  have h4 : pyStrip (cleanPipe l) = cleanPipe l := by
    unfold cleanPipe
    exact pyStrip_pyStrip _
  show pyStrip (collapseRuns pyIsSpace (collapseRuns isNTR (stripTags (cleanPipe l)))) =
    cleanPipe l
  rw [h1, h2, h3, h4]

/-! # Claim theorems -/

/-- Claim C3: the text normalizer is idempotent — for every string `s`,
`clean_text (clean_text s) = clean_text s` — and an absent (`None`/null)
input yields the empty string without error. -/
theorem c3_clean_text_idempotent :
    (∀ s : String, clean_text (clean_text s) = clean_text s) ∧
      clean_text_opt none = "" := by
  constructor
  · intro s
    by_cases h : s.data.isEmpty
    · have hs : clean_text s = "" := by unfold clean_text; rw [if_pos h]
      rw [hs]
      rfl
    · have hs : clean_text s = ⟨cleanPipe s.data⟩ := by
        unfold clean_text; rw [if_neg h]
      rw [hs]
      show (if (cleanPipe s.data).isEmpty then ""
        else ⟨cleanPipe (cleanPipe s.data)⟩ : String) = ⟨cleanPipe s.data⟩
      by_cases h2 : (cleanPipe s.data).isEmpty
      · rw [if_pos h2]
        have hx : cleanPipe s.data = [] := by simpa using h2
        rw [hx]
      · rw [if_neg h2, cleanPipe_idem]
  · rfl


/-! ## Bridge lemmas: the `mkRat` forms equal the ordinary ℚ arithmetic -/

theorem kMul_eq (t : List Char) (v : ℚ) :
    kMul t v = if t.contains 'k' then v * 1000 else v := by
  unfold kMul
  by_cases h : t.contains 'k'
  · rw [if_pos h, if_pos h, Rat.mkRat_eq_div]
    push_cast
    rw [mul_comm (v.num : ℚ) 1000, mul_div_assoc, Rat.num_div_den, mul_comm]
  · rw [if_neg h, if_neg h]

theorem pyFloat_frac_val (i f k : ℕ) :
    mkRat (i * 10 ^ k + f) (10 ^ k) = (i : ℚ) + (f : ℚ) / (10 : ℚ) ^ k := by
  rw [Rat.mkRat_eq_div]
  push_cast
  rw [add_div, mul_div_assoc, div_self (by positivity), mul_one]

/-! ## Evaluation equations for `parse_salary` -/

theorem parse_salary_range_ok {s : String} {g1 g2 : List Char} {v1 v2 : ℚ}
    (hne : ¬ s.data.isEmpty = true)
    (heq : rangeSearch (pyLowerL s.data) = some (g1, g2))
    (h1 : numValue g1 = some v1) (h2 : numValue g2 = some v2) :
    parse_salary s =
      some ⟨some (kMul (pyLowerL s.data) v1), some (kMul (pyLowerL s.data) v2),
        currencyScan (pyLowerL s.data), periodScan (pyLowerL s.data)⟩ := by
  simp only [parse_salary]
  rw [if_neg hne, heq]
  simp only [h1, h2]

theorem parse_salary_range_err {s : String} {g1 g2 : List Char}
    (hne : ¬ s.data.isEmpty = true)
    (heq : rangeSearch (pyLowerL s.data) = some (g1, g2))
    (h : numValue g1 = none ∨ numValue g2 = none) :
    parse_salary s = none := by
  simp only [parse_salary]
  rw [if_neg hne, heq]
  rcases h with h | h
  · cases h2 : numValue g2 <;> simp only [h, h2]
  · cases h1 : numValue g1 <;> simp only [h, h1]

theorem parse_salary_single_ok {s : String} {g : List Char} {v : ℚ}
    (hne : ¬ s.data.isEmpty = true)
    (hr : rangeSearch (pyLowerL s.data) = none)
    (hs : singleSearch (pyLowerL s.data) = some g)
    (hv : numValue g = some v) :
    parse_salary s =
      some ⟨some (kMul (pyLowerL s.data) v), some (kMul (pyLowerL s.data) v),
        currencyScan (pyLowerL s.data), periodScan (pyLowerL s.data)⟩ := by
  simp only [parse_salary]
  rw [if_neg hne, hr, hs]
  simp only [hv]

theorem parse_salary_single_err {s : String} {g : List Char}
    (hne : ¬ s.data.isEmpty = true)
    (hr : rangeSearch (pyLowerL s.data) = none)
    (hs : singleSearch (pyLowerL s.data) = some g)
    (hv : numValue g = none) :
    parse_salary s = none := by
  simp only [parse_salary]
  rw [if_neg hne, hr, hs]
  simp only [hv]

theorem parse_salary_no_number {s : String}
    (hne : ¬ s.data.isEmpty = true)
    (hr : rangeSearch (pyLowerL s.data) = none)
    (hs : singleSearch (pyLowerL s.data) = none) :
    parse_salary s =
      some ⟨none, none, currencyScan (pyLowerL s.data), periodScan (pyLowerL s.data)⟩ := by
  simp only [parse_salary]
  rw [if_neg hne, hr, hs]

/-- Claim C1 (amended): when the range regex captures two numbers,
`_parse_salary` assigns the first capture (`k`-scaled) to `salary_min` and
the second to `salary_max` — so `salary_min ≤ salary_max` holds exactly
when the captures are in ascending order, and fails for a descending range
such as `"150-100"` — and when no range is detected, `salary_min` and
`salary_max` are both set from the same single captured number, hence
equal. -/
theorem c1_salary_range_order :
    ∀ (s : String) (r : SalaryInfo), parse_salary s = some r →
      (∀ g1 g2, rangeSearch (pyLowerL s.data) = some (g1, g2) →
          r.min = (numValue g1).map (kMul (pyLowerL s.data)) ∧
          r.max = (numValue g2).map (kMul (pyLowerL s.data))) ∧
        (rangeSearch (pyLowerL s.data) = none → r.min = r.max) := by
  intro s r h
  by_cases hne : s.data.isEmpty
  · have hx : s.data = [] := by simpa using hne
    have hr : r = ⟨none, none, none, none⟩ := by
      rw [parse_salary.eq_def, if_pos hne] at h
      exact (Option.some.inj h).symm
    constructor
    · intro g1 g2 heq
      rw [hx] at heq
      simp [pyLowerL, rangeSearch] at heq
    · intro _
      rw [hr]
  · constructor
    · intro g1 g2 heq
      cases hv1 : numValue g1 with
      | none =>
        rw [parse_salary_range_err hne heq (Or.inl hv1)] at h
        exact absurd h (by simp)
      | some v1 =>
        cases hv2 : numValue g2 with
        | none =>
          rw [parse_salary_range_err hne heq (Or.inr hv2)] at h
          exact absurd h (by simp)
        | some v2 =>
          rw [parse_salary_range_ok hne heq hv1 hv2] at h
          have hr := Option.some.inj h
          subst hr
          exact ⟨rfl, rfl⟩
    · intro heq
      cases hs : singleSearch (pyLowerL s.data) with
      | none =>
        rw [parse_salary_no_number hne heq hs] at h
        have hr := Option.some.inj h
        rw [← hr]
      | some g =>
        cases hv : numValue g with
        | none =>
          rw [parse_salary_single_err hne heq hs hv] at h
          exact absurd h (by simp)
        | some v =>
          rw [parse_salary_single_ok hne heq hs hv] at h
          have hr := Option.some.inj h
          rw [← hr]

/-- Claim C1 counterexample: the descending range `"150-100"` is captured
by the range regex and produces `salary_min = 150 > 100 = salary_max`,
refuting `salary_min ≤ salary_max` for detected ranges. -/
theorem c1_salary_range_order_counterexample :
    rangeSearch (pyLowerL ("150-100" : String).data) =
        some (("150" : String).data, ("100" : String).data) ∧
      parse_salary "150-100" = some ⟨some 150, some 100, none, none⟩ ∧
      ¬ ((150 : ℚ) ≤ 100) := by
  refine ⟨by decide, by decide, by decide⟩

/-- Claim C1 witness: on `"100to300"` the amended theorem applies with the
range captures `"100"` and `"300"`. -/
theorem c1_salary_range_order_witness :
    (⟨some 100, some 300, none, none⟩ : SalaryInfo).min =
        (numValue ("100" : String).data).map (kMul (pyLowerL ("100to300" : String).data)) ∧
      (⟨some 100, some 300, none, none⟩ : SalaryInfo).max =
        (numValue ("300" : String).data).map (kMul (pyLowerL ("100to300" : String).data)) :=
  (c1_salary_range_order "100to300" ⟨some 100, some 300, none, none⟩ (by decide)).1
    ("100" : String).data ("300" : String).data (by decide)

/-- Claim C2 (code bug): on `"1.2.3"` the single-number regex captures
`"1.2.3"`, `float("1.2.3")` raises `ValueError`, and `_parse_salary` lets
the exception propagate (modelled by `none`) instead of returning the
all-null result the spec requires. -/
theorem c2_parse_salary_raises :
    parse_salary "1.2.3" = none ∧
      singleSearch (pyLowerL ("1.2.3" : String).data) = some ("1.2.3" : String).data ∧
      numValue ("1.2.3" : String).data = none := by
  refine ⟨by decide, by decide, by decide⟩

/-- Claim C6 (code bug): on the spec's own example `"$90k - $120k per
year"` the range regex finds no match (the `$` before the second number is
rejected by `(\d[\d,.]+)` right after the separator), so the single-number
fallback assigns 90000 to both `salary_min` and `salary_max` — not
`min = 90000, max = 120000` as the claim states. -/
theorem c6_salary_k_example :
    parse_salary "$90k - $120k per year" =
        some ⟨some 90000, some 90000, some "USD", some "year"⟩ ∧
      rangeSearch (pyLowerL ("$90k - $120k per year" : String).data) = none := by
  refine ⟨by decide, by decide⟩

/-! ## Skill extraction claims -/

theorem extract_skills_mem_regex {text sk : String}
    (h : sk ∈ extract_skills none text) :
    sk ∈ all_skills ∧ litBSearch sk.data (pyLowerL text.data) = true := by
  simp only [extract_skills] at h
  by_cases hne : text.data.isEmpty
  · rw [if_pos hne] at h; simp at h
  · rw [if_neg hne] at h
    have h1 : sk ∈ all_skills.filter (fun t => litBSearch t.data (pyLowerL text.data)) := by
      have h2 := List.mem_dedup.1 h
      simpa using h2
    exact ⟨(List.mem_filter.1 h1).1, (List.mem_filter.1 h1).2⟩

/-- Claim C4 (amended): with the NER pass unavailable, `extract_skills` on
`"Looking for a Python and Java developer"` yields exactly the set
`{python, java}`, and every reported token comes from a whole-word
(`\b`-delimited) occurrence in the lowercased text — the regex pass never
fires on a substring embedded in a larger word.  (The NER pass, when its
entity scanner reports an entity, adds vocabulary tokens by plain substring
containment, which is what the counterexample exhibits.) -/
theorem c4_whole_word_matching :
    extract_skills none "Looking for a Python and Java developer" = ["python", "java"] ∧
      ∀ (text sk : String), sk ∈ extract_skills none text →
        sk ∈ all_skills ∧ litBSearch sk.data (pyLowerL text.data) = true := by
  constructor
  · decide
  · intro text sk h
    exact extract_skills_mem_regex h

/-- Claim C4 counterexample: with the entity scanner reporting the span
`"javascript"` (label `PRODUCT`), `extract_skills "javascript"` reports
`"java"` although the text contains no whole-word occurrence of
`"java"` — it occurs only inside the larger word `"javascript"`. -/
theorem c4_whole_word_matching_counterexample :
    "java" ∈ extract_skills (some [("javascript", "PRODUCT")]) "javascript" ∧
      litBSearch ("java" : String).data (pyLowerL ("javascript" : String).data) = false := by
  refine ⟨by decide, by decide⟩

/-- Claim C4 witness: `"javascript"` itself is reported for a whole-word
occurrence. -/
theorem c4_whole_word_matching_witness :
    "javascript" ∈ all_skills ∧
      litBSearch ("javascript" : String).data
        (pyLowerL ("uses JavaScript daily" : String).data) = true :=
  c4_whole_word_matching.2 "uses JavaScript daily" "javascript" (by decide)

theorem stripPref_append (w r : List Char) : stripPref w (w ++ r) = some r := by
  induction w with
  | nil => rfl
  | cons a as ih => simp [stripPref, ih]

/-- Claim C10 (amended): the `\b`-wrapped pattern of a vocabulary token
whose first or last character is a non-word character can never match at an
occurrence whose corresponding side is a space or a string edge (both sides
of a `\b` would be non-word there), so `extract_skills "c++ developer"`
does not report `"c++"`; but the token can still be reported when another
occurrence abuts a word character, as in `"c++11"`. -/
theorem c10_nonword_edge_no_match :
    (∀ (w pre post : List Char), w ≠ [] →
        (((pre.getLast? = none ∨ pre.getLast? = some ' ') ∧ optIsWord w.head? = false) ∨
          ((post.head? = none ∨ post.head? = some ' ') ∧ optIsWord w.getLast? = false)) →
        bAt w pre.getLast? (w ++ post) = false) ∧
      "c++" ∉ extract_skills none "c++ developer" := by
  constructor
  · intro w pre post hw h
    unfold bAt
    rw [stripPref_append]
    show (boundaryB pre.getLast? (w ++ post).head? && boundaryB w.getLast? post.head?) = false
    have hsp : optIsWord (some ' ') = false := by decide
    rcases h with ⟨hpre, hw0⟩ | ⟨hpost, hwl⟩
    · have hhead : (w ++ post).head? = w.head? := by
        cases w with
        | nil => exact absurd rfl hw
        | cons a as => rfl
      have hb : boundaryB pre.getLast? (w ++ post).head? = false := by
        rw [hhead]
        unfold boundaryB
        rcases hpre with e | e
        · rw [e, hw0]; decide
        · rw [e, hsp, hw0]; decide
      rw [hb, Bool.false_and]
    · have hb : boundaryB w.getLast? post.head? = false := by
        unfold boundaryB
        rcases hpost with e | e
        · rw [e, hwl]; decide
        · rw [e, hsp, hwl]; decide
      rw [hb, Bool.and_false]
  · decide

/-- Claim C10 counterexample: `"c++"` occurs space-delimited in
`"c++ and c++11"`, yet `extract_skills` reports `"c++"` — the second
occurrence, inside `"c++11"`, has a word character right after the `+`,
which satisfies the trailing `\b`. -/
theorem c10_nonword_edge_no_match_counterexample :
    "c++" ∈ extract_skills none "c++ and c++11" ∧
      spaceDelimOccurs ("c++" : String).data ("c++ and c++11" : String).data = true := by
  refine ⟨by decide, by decide⟩

/-- Claim C10 witness: the pattern for `".net"` fails at a space-delimited
occurrence. -/
theorem c10_nonword_edge_no_match_witness :
    bAt (".net" : String).data ("use " : String).data.getLast?
      ((".net" : String).data ++ (" now" : String).data) = false :=
  c10_nonword_edge_no_match.1 (".net" : String).data ("use " : String).data
    (" now" : String).data (by decide) (Or.inl ⟨Or.inr (by decide), by decide⟩)

/-! ## Location claims -/

/-- Claim C5 (amended): `normalized_location.is_remote` is `true` whenever
the location is absent (`None`), the empty string, exactly one of the
remote phrases (after lowercasing), or contains the whole word "remote"
anywhere; a non-empty whitespace-only location, however, is parsed as a
city and gets `is_remote = false` (see the counterexample). -/
theorem c5_remote_flag :
    (normalize_location none).is_remote = true ∧
      ∀ s : String,
        (s.data = [] ∨ pyLowerStr s ∈ remotePhrases ∨
            litBSearch ("remote" : String).data (pyLowerL s.data) = true) →
          (normalize_location (some s)).is_remote = true := by
  constructor
  · rfl
  · intro s h
    simp only [normalize_location]
    by_cases h0 : s.data.isEmpty
    · rw [if_pos h0]
    · rw [if_neg h0]
      by_cases h1 : pyLowerStr s ∈ remotePhrases
      · rw [if_pos h1]
      · rw [if_neg h1]
        have hlit : litBSearch ("remote" : String).data (pyLowerL s.data) = true := by
          rcases h with h | h | h
          · exact absurd (by simp [h] : s.data.isEmpty = true) h0
          · exact absurd h h1
          · exact h
        cases hus : usMatch s.data with
        | some p =>
          obtain ⟨c, st⟩ := p
          exact hlit
        | none =>
          cases hintl : intlMatch s.data with
          | some p =>
            obtain ⟨c, co⟩ := p
            exact hlit
          | none => exact hlit

/-- Claim C5 counterexample: the whitespace-only location `" "` is truthy
in Python, matches no remote phrase and no pattern, and is treated as a
(blank) city with `is_remote = false`, contradicting "blank (empty or
whitespace-only) implies remote". -/
theorem c5_remote_flag_counterexample :
    (normalize_location (some " ")).is_remote = false ∧
      (" " : String).data.all pyIsSpace = true ∧ (" " : String).data ≠ [] := by
  refine ⟨by decide, by decide, by decide⟩

/-- Claim C5 witness: a location containing the word "remote" is flagged. -/
theorem c5_remote_flag_witness :
    (normalize_location (some "New York (Remote)")).is_remote = true :=
  c5_remote_flag.2 "New York (Remote)" (Or.inr (Or.inr (by decide)))

/-- Claim C8: `normalize_location` applies its rules in the fixed order —
empty-or-remote-phrase, "City, XX", "City, Country", whole-string-as-city —
with only the first matching rule filling the fields (the `is_remote` flag
in the later rules records whether the word "remote" occurs in the text);
in particular `"Remote"` gives the all-null remote result and
`"Austin, TX"` gives city/state/country with `is_remote = false`. -/
theorem c8_location_rule_order :
    normalize_location (some "Remote") = ⟨none, none, none, true⟩ ∧
      normalize_location (some "Austin, TX") =
        ⟨some "Austin", some "TX", some "United States", false⟩ ∧
      ∀ s : String, ¬ s.data.isEmpty = true → pyLowerStr s ∉ remotePhrases →
        ((∀ c st, usMatch s.data = some (c, st) →
            normalize_location (some s) =
              ⟨some ⟨pyStrip c⟩, some ⟨pyStrip st⟩, some "United States",
                litBSearch ("remote" : String).data (pyLowerL s.data)⟩) ∧
          (usMatch s.data = none → ∀ c co, intlMatch s.data = some (c, co) →
            normalize_location (some s) =
              ⟨some ⟨pyStrip c⟩, none, some ⟨pyStrip co⟩,
                litBSearch ("remote" : String).data (pyLowerL s.data)⟩) ∧
          (usMatch s.data = none → intlMatch s.data = none →
            normalize_location (some s) =
              ⟨some (pyStripStr s), none, none,
                litBSearch ("remote" : String).data (pyLowerL s.data)⟩)) := by
  refine ⟨by decide, by decide, ?_⟩
  intro s h0 h1
  refine ⟨?_, ?_, ?_⟩
  · intro c st hus
    simp only [normalize_location]
    rw [if_neg h0, if_neg h1, hus]
  · intro hus c co hintl
    simp only [normalize_location]
    rw [if_neg h0, if_neg h1, hus, hintl]
  · intro hus hintl
    simp only [normalize_location]
    rw [if_neg h0, if_neg h1, hus, hintl]

/-- Claim C8 witness: the "City, Country" rule applied to
`"Paris, France"`. -/
theorem c8_location_rule_order_witness :
    normalize_location (some "Paris, France") =
      ⟨some ⟨pyStrip ("Paris" : String).data⟩, none,
        some ⟨pyStrip ("France" : String).data⟩,
        litBSearch ("remote" : String).data
          (pyLowerL ("Paris, France" : String).data)⟩ :=
  ((c8_location_rule_order.2.2 "Paris, France" (by decide) (by decide)).2.1
    (by decide) ("Paris" : String).data ("France" : String).data (by decide))

/-! ## Deduplication claims -/

theorem find?_cons_pos {α : Type} {p : α → Bool} {a : α} (l : List α)
    (h : p a = true) : List.find? p (a :: l) = some a := by
  simp [List.find?, h]

theorem find?_cons_neg {α : Type} {p : α → Bool} {a : α} (l : List α)
    (h : p a = false) : List.find? p (a :: l) = List.find? p l := by
  simp [List.find?, h]

theorem dedupAux_filter (k : String × String) :
    ∀ (l : List CleanJob) (seen : List (String × String)),
      (dedupAux seen l).filter (fun c => decide (jobKey c = k)) =
        if k ∈ seen then [] else (l.find? (fun c => decide (jobKey c = k))).toList := by
  intro l
  induction l with
  | nil =>
    intro seen
    by_cases h : k ∈ seen <;> simp [dedupAux, h]
  | cons r rs ih =>
    intro seen
    by_cases hmem : jobKey r ∈ seen
    · rw [show dedupAux seen (r :: rs) = dedupAux seen rs from by simp [dedupAux, hmem]]
      rw [ih seen]
      by_cases hk : jobKey r = k
      · have hks : k ∈ seen := hk ▸ hmem
        rw [if_pos hks, if_pos hks]
      · have hfr : (fun c => decide (jobKey c = k)) r = false := by simp [hk]
        rw [find?_cons_neg rs hfr]
    · rw [show dedupAux seen (r :: rs) = r :: dedupAux (jobKey r :: seen) rs from by
        simp [dedupAux, hmem]]
      rw [List.filter_cons]
      by_cases hk : jobKey r = k
      · have hpr : (fun c => decide (jobKey c = k)) r = true := by simp [hk]
        rw [if_pos hpr, ih (jobKey r :: seen)]
        have hin : k ∈ jobKey r :: seen := by rw [← hk]; exact List.mem_cons_self _ _
        rw [if_pos hin]
        have hkn : ¬ k ∈ seen := by rw [← hk]; exact hmem
        rw [if_neg hkn, find?_cons_pos rs hpr]
        rfl
      · have hfr : (fun c => decide (jobKey c = k)) r = false := by simp [hk]
        rw [if_neg (by simp [hfr] : ¬ (fun c => decide (jobKey c = k)) r = true)]
        rw [ih (jobKey r :: seen)]
        have hiff : (k ∈ jobKey r :: seen) ↔ k ∈ seen := by
          constructor
          · intro h
            rcases List.mem_cons.1 h with e | e
            · exact absurd e.symm hk
            · exact e
          · exact fun h => List.mem_cons_of_mem _ h
        rw [find?_cons_neg rs hfr]
        by_cases hks : k ∈ seen
        · rw [if_pos (hiff.2 hks), if_pos hks]
        · rw [if_neg (fun h => hks (hiff.1 h)), if_neg hks]

theorem dedupAux_eq_self :
    ∀ (l : List CleanJob) (seen : List (String × String)),
      (∀ c ∈ l, jobKey c ∉ seen) → (l.map jobKey).Nodup → dedupAux seen l = l := by
  intro l
  induction l with
  | nil => intro seen _ _; rfl
  | cons r rs ih =>
    intro seen hseen hnodup
    have h1 : jobKey r ∉ seen := hseen r (List.mem_cons_self _ _)
    rw [show dedupAux seen (r :: rs) = r :: dedupAux (jobKey r :: seen) rs from by
      simp [dedupAux, h1]]
    have hnodup2 : (jobKey r :: rs.map jobKey).Nodup := by
      rwa [List.map_cons] at hnodup
    have hnd := List.nodup_cons.1 hnodup2
    congr 1
    apply ih
    · intro c hc hmem
      rcases List.mem_cons.1 hmem with e | e
      · have hm : jobKey c ∈ rs.map jobKey := List.mem_map_of_mem _ hc
        rw [e] at hm
        exact hnd.1 hm
      · exact hseen c (List.mem_cons_of_mem _ hc) e
    · exact hnd.2

/-- Claim C7: within one batch, after text cleaning, the records with any
given `(title, company)` key are collapsed to exactly the first-occurring
one (the filter of the output by a key equals the first cleaned record
with that key), and when all cleaned keys are distinct every record is
kept. -/
theorem c7_dedup_keeps_first (batch : List RawJob) :
    (∀ k : String × String,
        (clean_data batch).filter (fun c => decide (jobKey c = k)) =
          ((batch.map cleanJob).find? (fun c => decide (jobKey c = k))).toList) ∧
      (((batch.map cleanJob).map jobKey).Nodup →
        clean_data batch = batch.map cleanJob) := by
  constructor
  · intro k
    unfold clean_data
    rw [dedupAux_filter k (batch.map cleanJob) []]
    rw [if_neg (by simp)]
  · intro hnd
    unfold clean_data
    exact dedupAux_eq_self (batch.map cleanJob) [] (by simp) hnd

/-- Claim C7 witness: a batch whose first two records share the cleaned
key `("Data Engineer", "Acme")` keeps only the first of them (with its
fields), and a batch with distinct keys keeps every record. -/
theorem c7_dedup_keeps_first_witness :
    (clean_data [⟨some "Data <b>Engineer</b>", some "Acme", some "a", none, 1⟩,
          ⟨some "  Data   Engineer ", some "Acme", some "b", none, 2⟩,
          ⟨some "Dev", some "Acme", none, none, 3⟩]).filter
        (fun c => decide (jobKey c = ("Data Engineer", "Acme"))) =
      [⟨"Data Engineer", "Acme", "a", "", 1⟩] ∧
    clean_data [⟨some "A", some "X", none, none, 1⟩,
        ⟨some "B", some "X", none, none, 2⟩] =
      [⟨"A", "X", "", "", 1⟩, ⟨"B", "X", "", "", 2⟩] := by
  constructor
  · rw [(c7_dedup_keeps_first _).1 ("Data Engineer", "Acme")]
    decide
  · rw [(c7_dedup_keeps_first _).2 (by decide)]
    decide

/-! ## Relative-date claims -/

/-- Claim C9 (amended): whenever the relative-date regex finds
`<N> (day|days|week|weeks|month|months) ago` in the lowercased, stripped
text, `_parse_date` returns the reference date minus `N` days, `7·N` days,
or `30·N` days respectively, formatted `YYYY-MM-DD` — provided the result
does not precede `date.min` (ordinal 1); a larger `N` makes the
subtraction raise `OverflowError` (see the counterexample). -/
theorem c9_relative_dates (today : PyDate) (s : String) (n : Nat) (u : RelUnit)
    (hrel : relSearch (pyStrip (pyLowerL s.data)) = some (n, u))
    (hrange : n * unitDays u < toOrdinal today) :
    parse_date today s =
      some (some (formatDate (fromOrdinal (toOrdinal today - n * unitDays u)))) := by
  have hne : ¬ s.data.isEmpty = true := by
    intro he
    have hx : s.data = [] := by simpa using he
    rw [hx] at hrel
    simp [pyLowerL, pyStrip, dropTrail, relSearch] at hrel
  simp only [parse_date]
  rw [if_neg hne, hrel]
  show (match subDays today (n * unitDays u) with
    | some d => some (some (formatDate d))
    | none => none) =
    some (some (formatDate (fromOrdinal (toOrdinal today - n * unitDays u))))
  rw [show subDays today (n * unitDays u) =
    some (fromOrdinal (toOrdinal today - n * unitDays u)) from by
      unfold subDays; rw [if_pos hrange]]

/-- Claim C9 counterexample: with the reference date 2025-01-10 (ordinal
739261), the input `"800000 days ago"` matches the relative pattern but
the subtraction leaves the supported calendar, so `_parse_date` raises
`OverflowError` (modelled by `none`) instead of returning a formatted
date. -/
theorem c9_relative_dates_counterexample :
    parse_date ⟨2025, 1, 10⟩ "800000 days ago" = none ∧
      relSearch (pyStrip (pyLowerL ("800000 days ago" : String).data)) =
        some (800000, RelUnit.dayU) := by
  refine ⟨by decide, by decide⟩

/-- Claim C9 witness: `"3 days ago"` from the fixed reference date
2025-01-10 yields `"2025-01-07"`. -/
theorem c9_relative_dates_witness :
    parse_date ⟨2025, 1, 10⟩ "3 days ago" = some (some "2025-01-07") := by
  rw [c9_relative_dates ⟨2025, 1, 10⟩ "3 days ago" 3 RelUnit.dayU (by decide) (by decide)]
  decide
